import Mathlib

/-!
# bt2sum: BLAKE2 tree checksums in "unlimited fanout" mode

A shallow embedding of `bt2sum.go` and the properties of its size parser and of its
two-level tree-hash pipeline.

Conventions of the embedding:

* Go strings are lists of runes (`List Char`); indices count runes, which agrees with Go's
  byte offsets on every slice taken here, since the slices are cut at ASCII digits.
* `uint` is 64 bits wide; conversions and `uint` arithmetic are written with explicit
  remainders.
* The hash primitive is a parameter: a factory `hashDesc.maker` and the `hash.Hash` methods
  `Reset`, `Copy` (absorbing through `io.Copy`) and `Sum`, over an abstract state.
* The goroutines of `calcStream` communicate over unbuffered channels.  The producer is a
  loop over the reader; the worker pool consumes the chunks in the order they are sent; the
  order in which results arrive and the order in which the map is walked are left to a
  `Schedule`.  A call that never returns has the outcome `Outcome.blocked`.
* Of the resources of the machine only the limit of `make` on the leaf buffer is modelled
  (`maxAlloc`); running out of memory below that limit is not.
-/

namespace Bt2sum

/-! ## The size parser -/

/-- Go `uint(x)` on a 64-bit platform: the value modulo 2^64. -/
def uint (x : Int) : Nat := (x % 18446744073709551616).toNat

/-- Go `unicode.ToLower` on the runes that matter for matching against "kmg": the ASCII
capitals, and the two non-ASCII runes whose lower case is an ASCII letter (KELVIN SIGN and
LATIN CAPITAL LETTER I WITH DOT ABOVE).  Every other ASCII rune is its own lower case;
every other non-ASCII rune lower-cases to a non-ASCII rune, which matches none of k, m, g,
and is left in place. -/
def toLowerRune (c : Char) : Char :=
  if 65 ≤ c.toNat ∧ c.toNat ≤ 90 then Char.ofNat (c.toNat + 32)
  else if c.toNat = 0x212A then 'k'
  else if c.toNat = 0x130 then 'i'
  else c

/-- Go `strings.ToLower`. -/
def ToLower (s : List Char) : List Char := s.map toLowerRune

/-- The search of Go `strings.IndexAny(s, chars)`: the index of the first rune of `s` that
occurs in `chars`, or -1; `i` is the index of the head of the part of `s` still to search. -/
def IndexAnyFrom (chars : List Char) : List Char → Nat → Int
  | [], _ => -1
  | c :: cs, i => if c ∈ chars then (i : Int) else IndexAnyFrom chars cs (i + 1)

/-- Go `strings.IndexAny(s, chars)`. -/
def IndexAny (s chars : List Char) : Int := IndexAnyFrom chars s 0

/-- Go `x << s` on `uint`: bits shifted past bit 63 are lost. -/
def shl64 (x s : Nat) : Nat := (x * 2 ^ s) % 18446744073709551616

/-- Source: `getMultiplier` (bt2sum.go, lines 29-32). -/
def getMultiplier (spec : List Char) : Nat :=
  let m := uint (IndexAny "kmg".toList (ToLower spec))
  shl64 1 (((m + 1) % 18446744073709551616 * 10) % 18446744073709551616)

/-- Go regexp `\d+` with `FindAllStringSubmatchIndex(input, -1)`: the index pairs
`[start, end)` of the maximal runs of ASCII digits, left to right.  `pos` is the index of
the next rune and `st` the start of the run being read. -/
def scanDigits : List Char → Nat → Option Nat → List (Nat × Nat)
  | [], _, none => []
  | [], pos, some st => [(st, pos)]
  | c :: cs, pos, none =>
      if c.isDigit then scanDigits cs (pos + 1) (some pos) else scanDigits cs (pos + 1) none
  | c :: cs, pos, some st =>
      if c.isDigit then scanDigits cs (pos + 1) (some st)
      else (st, pos) :: scanDigits cs (pos + 1) none

/-- Source: `regexp.MustCompile("\\d+").FindAllStringSubmatchIndex(input, -1)`
(bt2sum.go, lines 35-36). -/
def FindAllDigits (input : List Char) : List (Nat × Nat) := scanDigits input 0 none

/-- Value of a string of decimal digits. -/
def decimalValue (ds : List Char) : Nat :=
  ds.foldl (fun acc c => 10 * acc + (c.toNat - 48)) 0

/-- Go `strconv.Atoi` on a 64-bit platform: an optional sign followed by at least one
decimal digit; `none` stands for a non-nil error (syntax or range). -/
def Atoi (s : List Char) : Option Int :=
  match s with
  | [] => none
  | c :: ds =>
      if c = '-' then
        if ds ≠ [] ∧ ds.all Char.isDigit ∧ decimalValue ds ≤ 9223372036854775808
        then some (-(decimalValue ds : Int)) else none
      else if c = '+' then
        if ds ≠ [] ∧ ds.all Char.isDigit ∧ decimalValue ds < 9223372036854775808
        then some (decimalValue ds : Int) else none
      else
        if (c :: ds).all Char.isDigit ∧ decimalValue (c :: ds) < 9223372036854775808
        then some (decimalValue (c :: ds) : Int) else none

/-- Go slice expression `s[lo:hi]` on in-range indices. -/
def slice (s : List Char) (lo hi : Nat) : List Char := (s.drop lo).take (hi - lo)

/-- Source: `parseSize` (bt2sum.go, lines 34-47). -/
def parseSize (input : List Char) : Nat :=
  match FindAllDigits input with
  | [(a, b)] =>
      match Atoi (slice input a b) with
      | none => 0
      | some i => (uint i * getMultiplier (input.drop b)) % 18446744073709551616
  | _ => 0

/-- Multiplier the size syntax assigns to a suffix, following the spec's words: `k` is 2^10,
`m` is 2^20, `g` is 2^30 (in either case), no suffix is 1. -/
def specMultiplier (s : List Char) : Nat :=
  if s = ['k'] ∨ s = ['K'] then 2 ^ 10
  else if s = ['m'] ∨ s = ['M'] then 2 ^ 20
  else if s = ['g'] ∨ s = ['G'] then 2 ^ 30
  else 1

/-! ## The tree-hash pipeline of `calcStream` -/

/-- Go `byte`. -/
abbrev Byte := UInt8

/-- Go `error` values, by their message. -/
abbrev Err := String

/-- Go `io.EOF`. -/
def EOF : Err := "EOF"

/-- Go `uint8(x)` of an `int`. -/
def uint8 (x : Int) : Nat := (x % 256).toNat

/-- Go `uint32(x)` of a `uint`. -/
def uint32 (x : Nat) : Nat := x % 4294967296

/-- Go `uint64(x)` of a non-negative `int`. -/
def uint64 (x : Nat) : Nat := x % 18446744073709551616

/-- Go `int64` arithmetic: the result of an addition wrapped into [-2^63, 2^63). -/
def int64 (x : Int) : Int :=
  (x + 9223372036854775808) % 18446744073709551616 - 9223372036854775808

/-- Result of one `r.Read(p)`: the bytes `p[:n]` that were filled in, the error, and the
reader afterwards. -/
structure ReadResult (ρ : Type) where
  data : List Byte
  err : Option Err
  next : ρ

/-- Go `(*bytes.Buffer).Read` on a buffer holding the unread bytes `b`, for a request of
`len` bytes. -/
def bufferRead (b : List Byte) (len : Nat) : ReadResult (List Byte) :=
  if b = [] then
    if len = 0 then ⟨[], none, b⟩ else ⟨[], some EOF, b⟩
  else ⟨b.take len, none, b.drop len⟩

/-- A stream whose bytes arrive in bursts (a pipe or socket behind `os.Stdin`): `Read`
hands out the pending burst, cut to the size of the request, and `io.EOF` once the writer
is done. -/
def pipeRead : List (List Byte) → Nat → ReadResult (List (List Byte))
  | [], _ => ⟨[], some EOF, []⟩
  | seg :: rest, len =>
      if seg.length ≤ len then ⟨seg, none, rest⟩
      else ⟨seg.take len, none, seg.drop len :: rest⟩

/-- The methods of Go `hash.Hash` that the program calls, over hash states `σ`.
`Copy s p` is `io.Copy(s, bytes.NewBuffer(p))`: the state afterwards and the error. -/
structure Hash (σ : Type) where
  Reset : σ → σ
  Copy : σ → List Byte → σ × Option Err
  Sum : σ → List Byte

/-- Source: `hashDesc` (bt2sum.go, lines 49-53). -/
structure hashDesc (σ : Type) where
  name : String
  maxSize : Int
  maker : (size : Nat) → (offset : Nat) → (lastNode : Bool) → (depth : Nat) →
    (leafSize : Nat) → Except Err σ

/-- The package-level variables `*sizeFlag`, `*cpu` and `leafSize` read by `calcStream`. -/
structure Flags where
  sizeFlag : Int
  cpu : Int
  leafSize : Nat

/-- Source: `chunkInput` (bt2sum.go, lines 117-123). -/
structure chunkInput where
  part : Nat
  partBuffer : List Byte
  lastChunk : Bool
  leafSize : Nat
  level : Nat
  deriving DecidableEq, Repr

/-- Source: `chunkOutput` (bt2sum.go, lines 125-128). -/
structure chunkOutput where
  digest : List Byte
  part : Nat
  deriving DecidableEq, Repr

/-- Go runtime constant `maxAlloc` on 64-bit platforms (2^48 on linux/amd64): `make` panics
with "makeslice: len out of range" for a byte slice longer than this.  Whether the memory
for a smaller slice is available is outside the model. -/
def maxAlloc : Nat := 281474976710656

/-- How the producer goroutine ends: `close(chunks)` is reached, or it returns on a read
error and leaves `chunks` open, or the allocation of the leaf buffer panics. -/
inductive ProducerEnd where
  | closed
  | returned
  | panicked
  deriving DecidableEq

/-- Source: the chunk producer goroutine of `calcStream` (bt2sum.go, lines 146-167).
Returns the chunks sent on the `chunks` channel, in order, and how the goroutine ends;
`none` when `fuel` iterations do not finish the loop. -/
def chunkProducer {ρ : Type} (read : ρ → Nat → ReadResult ρ) (leafSize : Nat)
    (fileSize : Int) : Nat → ρ → Nat → Int → Option (List chunkInput × ProducerEnd)
  | 0, _, _, _ => none
  | fuel + 1, r, part, totalSize =>
      if maxAlloc < leafSize then some ([], ProducerEnd.panicked)
      else
        let res := read r leafSize
        match res.err with
        | some _ => some ([], ProducerEnd.returned)
        | none =>
            let n := res.data.length
            let totalSize := int64 (totalSize + n)
            let lastChunk := decide (n < leafSize) ||
              (decide (n = leafSize) && decide (totalSize = fileSize))
            let c : chunkInput := ⟨part, res.data, lastChunk, leafSize, 0⟩
            if lastChunk then some ([c], ProducerEnd.closed)
            else
              match chunkProducer read leafSize fileSize fuel res.next (part + 1) totalSize with
              | none => none
              | some (cs, ending) => some (c :: cs, ending)

/-- Source: the loop body of `calcChunkWorkers` (bt2sum.go, lines 99-113) on one chunk.
`none`: the worker returns without a result (hash construction failed). -/
def hashChunk {σ : Type} (algo : hashDesc σ) (hm : Hash σ) (g : Flags) (c : chunkInput) :
    Option chunkOutput :=
  match algo.maker (uint8 g.sizeFlag) (uint64 c.part) c.lastChunk 0 (uint32 c.leafSize) with
  | .error _ => none
  | .ok blake =>
      let copied := hm.Copy (hm.Reset blake) c.partBuffer
      match copied.2 with
      | some _ => some ⟨[], c.part⟩
      | none => some ⟨hm.Sum copied.1, c.part⟩

/-- Source: `calcChunkWorkers` (bt2sum.go, lines 95-115), for a pool of `live` workers on
the unbuffered `chunks` channel.  The chunks are received in the order they are sent, each
by some worker that is still running; a worker whose hash construction fails returns and
its chunk yields no result.  Returns the results that are sent and the number of workers
still ranging over `chunks` once no further chunk can be received. -/
def calcChunkWorkers {σ : Type} (algo : hashDesc σ) (hm : Hash σ) (g : Flags) :
    Nat → List chunkInput → List chunkOutput × Nat
  | live, [] => ([], live)
  | 0, _ :: _ => ([], 0)
  | live + 1, c :: cs =>
      match hashChunk algo hm g c with
      | none => calcChunkWorkers algo hm g live cs
      | some out =>
          let rest := calcChunkWorkers algo hm g (live + 1) cs
          (out :: rest.1, rest.2)

/-- Go map assignment `m[k] = v`, the map held as its list of entries. -/
def mapInsert (m : List (Nat × List Byte)) (k : Nat) (v : List Byte) :
    List (Nat × List Byte) :=
  match m with
  | [] => [(k, v)]
  | e :: rest => if e.1 = k then (k, v) :: rest else e :: mapInsert rest k v

/-- Source: the collection loop `digestHash[r.part] = r.digest` (bt2sum.go, lines 177-180)
over the results in the order they are received. -/
def collectDigests (results : List chunkOutput) : List (Nat × List Byte) :=
  results.foldl (fun m r => mapInsert m r.part r.digest) []

/-- Go `make([]byte, n)` for the concatenation buffer; `none` is the run-time panic on a
negative length.  The upper limit `maxAlloc` is not modelled for this buffer: with digests
of `sizeFlag` bytes it is no longer than the digests the map already holds. -/
def makeBytes (n : Int) : Option (List Byte) :=
  if n < 0 then none else some (List.replicate n.toNat 0)

/-- Go `copy(b[lo:hi], val)`; `none` is the run-time panic on slice bounds out of range. -/
def copyInto (b : List Byte) (lo hi : Int) (val : List Byte) : Option (List Byte) :=
  if 0 ≤ lo ∧ lo ≤ hi ∧ hi ≤ (b.length : Int) then
    let n := min (hi - lo).toNat val.length
    some (b.take lo.toNat ++ val.take n ++ b.drop (lo.toNat + n))
  else none

/-- Source: the loop `for index, val := range digestHash` (bt2sum.go, lines 184-187) over
the entries in the order the map iteration yields them. -/
def placeDigests (sizeFlag : Int) : List (Nat × List Byte) → List Byte → Option (List Byte)
  | [], b => some b
  | e :: rest, b =>
      match copyInto b (sizeFlag * e.1) (sizeFlag * e.1 + sizeFlag) e.2 with
      | none => none
      | some b1 => placeDigests sizeFlag rest b1

/-- Source: concatenation of the leaf digests (bt2sum.go, lines 183-187): `entries` is the
map in iteration order, `len` is `len(digestHash)`. -/
def concatDigests (sizeFlag : Int) (entries : List (Nat × List Byte)) (len : Nat) :
    Option (List Byte) :=
  match makeBytes (len * sizeFlag) with
  | none => none
  | some b => placeDigests sizeFlag entries b

/-- The choices the Go runtime makes in one run of `calcStream`: the order in which the
results of the workers reach the collecting loop, and the order in which `range` walks the
map. -/
structure Schedule where
  arrival : List chunkOutput → List chunkOutput
  iteration : List (Nat × List Byte) → List (Nat × List Byte)

/-- A schedule only reorders: it neither drops nor duplicates. -/
def Schedule.Valid (s : Schedule) : Prop :=
  (∀ l, (s.arrival l).Perm l) ∧ (∀ l, (s.iteration l).Perm l)

/-- The schedule in which results arrive, and the map is walked, in chunk order. -/
def Schedule.inOrder : Schedule := ⟨id, id⟩

/-- How a call of `calcStream` ends: with a digest, with an error, never (the Go runtime
reports a deadlock when every goroutine waits), or with a run-time panic. -/
inductive Outcome where
  | digest (d : List Byte)
  | error (e : Err)
  | blocked
  | panic
  deriving DecidableEq, Repr

/-- Source: `calcStream` (bt2sum.go, lines 130-200).  `Outcome.digest d` is `return d, nil`,
`Outcome.error e` is `return nil, e`, `Outcome.blocked` is the collecting loop waiting for
ever on a `results` channel that is never closed, `Outcome.panic` is a run-time panic, in
the producer goroutine (which ends the program) or while the concatenation buffer is
built; `none` when `fuel` is too small for the producer. -/
def calcStream {σ ρ : Type} (algo : hashDesc σ) (hm : Hash σ) (g : Flags)
    (read : ρ → Nat → ReadResult ρ) (r : ρ) (fileSize : Int) (sched : Schedule)
    (fuel : Nat) : Option Outcome :=
  match chunkProducer read g.leafSize fileSize fuel r 0 0 with
  | none => none
  | some (chunks, ending) =>
      if ending = ProducerEnd.panicked then some Outcome.panic
      else
        let w := calcChunkWorkers algo hm g g.cpu.toNat chunks
        if w.2 ≠ 0 ∧ ending = ProducerEnd.returned then some Outcome.blocked
        else
          let digestHash := collectDigests (sched.arrival w.1)
          match concatDigests g.sizeFlag (sched.iteration digestHash) digestHash.length with
          | none => some Outcome.panic
          | some b =>
              match algo.maker (uint8 g.sizeFlag) 0 true 1 (uint32 g.leafSize) with
              | .error e => some (Outcome.error e)
              | .ok rootBlake =>
                  some (Outcome.digest (hm.Sum (hm.Copy (hm.Reset rootBlake) b).1))

/-! ## Specification-side notions -/

/-- Number of leaves of an input of `L` bytes with leaf size `S`: the ceiling of `L / S`. -/
def leafCount (L S : Nat) : Nat := (L + S - 1) / S

/-- Input bytes `[i * S, min ((i + 1) * S, L))` of leaf `i`. -/
def leafBytes (data : List Byte) (S i : Nat) : List Byte := (data.drop (i * S)).take S

/-- Chunk `i` of an input: its bytes, and the last-leaf mark on the highest index only. -/
def leafChunk (data : List Byte) (S i : Nat) : chunkInput :=
  ⟨i, leafBytes data S i, decide (i + 1 = leafCount data.length S), S, 0⟩

/-- A reader over the unread bytes `rest r` that fills each request whenever enough bytes
remain, hands out what is left otherwise, and reports end-of-file by an error once nothing
is left (as `bytes.Buffer` and a regular `os.File` do). -/
def FillsRequests {ρ : Type} (read : ρ → Nat → ReadResult ρ) (rest : ρ → List Byte) : Prop :=
  ∀ r len, 0 < len →
    (rest r = [] → (read r len).data = [] ∧ (read r len).err ≠ none) ∧
    (rest r ≠ [] → (read r len).data = (rest r).take len ∧ (read r len).err = none ∧
      rest (read r len).next = (rest r).drop len)

/-- What `copy` leaves in a zero-filled slot of `d` bytes: the digest cut to `d` bytes,
followed by the zeros it does not reach. -/
def slotBytes (d : Nat) (v : List Byte) : List Byte :=
  v.take d ++ List.replicate (d - v.length) 0

/-- Slots of the concatenation buffer after one more `copy`: entry `e` overwrites the
front of slot `e.1`, the other slots stay as `g` gives them. -/
def placeSlot (d : Nat) (g : Nat → List Byte) (e : Nat × List Byte) : Nat → List Byte :=
  fun j => if j = e.1 then e.2.take (min d e.2.length) ++ (g j).drop (min d e.2.length)
    else g j

/-- Digest a worker submits for chunk `c`; empty when it submits none. -/
def leafDigest {σ : Type} (algo : hashDesc σ) (hm : Hash σ) (g : Flags) (c : chunkInput) :
    List Byte :=
  match hashChunk algo hm g c with
  | some out => out.digest
  | none => []

/-! ## Test doubles -/

/-- State of the recording hash: the tree parameters it was made with and the bytes
absorbed so far. -/
structure Recorded where
  size : Nat
  offset : Nat
  lastNode : Bool
  depth : Nat
  leafSize : Nat
  absorbed : List Byte
  deriving DecidableEq, Repr

/-- A stand-in for a hash algorithm whose construction always succeeds. -/
def recordingAlgo : hashDesc Recorded :=
  ⟨"RECORD", 255, fun size offset lastNode depth leafSize =>
    .ok ⟨size, offset, lastNode, depth, leafSize, []⟩⟩

/-- Digest of the recording hash: `size` bytes, a fold of the parameters and the input. -/
def recordedSum (s : Recorded) : List Byte :=
  List.replicate s.size
    (UInt8.ofNat (s.absorbed.foldl (fun a b => (31 * a + b.toNat + 1) % 251)
      (s.offset + 7 * s.depth + (if s.lastNode then 3 else 0) + s.leafSize)))

/-- The recording hash: absorbing never fails. -/
def recordingHash : Hash Recorded :=
  ⟨fun s => ⟨s.size, s.offset, s.lastNode, s.depth, s.leafSize, []⟩,
   fun s p => (⟨s.size, s.offset, s.lastNode, s.depth, s.leafSize, s.absorbed ++ p⟩, none),
   recordedSum⟩

/-- The recording hash with a write fault: absorbing fails in the leaf at offset 1. -/
def faultyHash : Hash Recorded :=
  ⟨recordingHash.Reset,
   fun s p => if s.depth = 0 ∧ s.offset = 1 then (s, some "short write")
     else recordingHash.Copy s p,
   recordedSum⟩

/-- A stand-in for an algorithm that makes leaf hashes but rejects the parameters of the
root node. -/
def rootlessAlgo : hashDesc Recorded :=
  ⟨"NOROOT", 255, fun size offset lastNode depth leafSize =>
    if depth = 1 then .error "node depth not supported"
    else .ok ⟨size, offset, lastNode, depth, leafSize, []⟩⟩

/-- Sample leaf digests of two bytes: leaf `i` has the digest `[2i+1, 2i+2]`. -/
def sampleDigest (i : Nat) : List Byte := [UInt8.ofNat (2 * i + 1), UInt8.ofNat (2 * i + 2)]

/-- The digest the recording hash yields for tree parameters and input `p`. -/
def recordedHash (size offset : Nat) (lastNode : Bool) (depth leafSize : Nat)
    (p : List Byte) : List Byte :=
  recordedSum ⟨size, offset, lastNode, depth, leafSize, p⟩

/-! ## Theorems -/

theorem indexAnyFrom_kmg (chars : List Char) :
    IndexAnyFrom chars ['k', 'm', 'g'] 0 =
      if 'k' ∈ chars then 0 else if 'm' ∈ chars then 1 else if 'g' ∈ chars then 2 else -1 := by
  simp only [IndexAnyFrom]
  split_ifs <;> rfl

theorem getMultiplier_eq (spec : List Char) :
    getMultiplier spec =
      if 'k' ∈ ToLower spec then 1024
      else if 'm' ∈ ToLower spec then 1048576
      else if 'g' ∈ ToLower spec then 1073741824
      else 1 := by
  have hk : "kmg".toList = ['k', 'm', 'g'] := rfl
  unfold getMultiplier IndexAny
  rw [hk, indexAnyFrom_kmg]
  split_ifs <;> rfl

theorem scanDigits_run (d : List Char) (hd : ∀ c ∈ d, c.isDigit = true) (post : List Char)
    (hpost : ∀ c ∈ post.head?, c.isDigit = false) (pos st : Nat) :
    scanDigits (d ++ post) pos (some st) =
      (st, pos + d.length) :: scanDigits post (pos + d.length) none := by
  induction d generalizing pos with
  | nil =>
    cases post with
    | nil => simp [scanDigits]
    | cons c cs =>
      have hc : c.isDigit = false := hpost c (by simp)
      simp [scanDigits, hc]
  | cons c cs ih =>
    have hc : c.isDigit = true := hd c (by simp)
    have hcs : ∀ x ∈ cs, x.isDigit = true := fun x hx => hd x (by simp [hx])
    have e : pos + 1 + cs.length = pos + (cs.length + 1) := by omega
    have step : scanDigits (c :: (cs ++ post)) pos (some st) =
        scanDigits (cs ++ post) (pos + 1) (some st) := by
      simp [scanDigits, hc]
    rw [List.cons_append, step, ih hcs, List.length_cons, e]

theorem scanDigits_run_start (d : List Char) (hne : d ≠ []) (hd : ∀ c ∈ d, c.isDigit = true)
    (post : List Char) (hpost : ∀ c ∈ post.head?, c.isDigit = false) (pos : Nat) :
    scanDigits (d ++ post) pos none =
      (pos, pos + d.length) :: scanDigits post (pos + d.length) none := by
  cases d with
  | nil => exact absurd rfl hne
  | cons c cs =>
    have hc : c.isDigit = true := hd c (by simp)
    have hcs : ∀ x ∈ cs, x.isDigit = true := fun x hx => hd x (by simp [hx])
    have e : pos + 1 + cs.length = pos + (cs.length + 1) := by omega
    have step : scanDigits (c :: (cs ++ post)) pos none =
        scanDigits (cs ++ post) (pos + 1) (some pos) := by
      simp [scanDigits, hc]
    rw [List.cons_append, step, scanDigits_run cs hcs post hpost, List.length_cons, e]

theorem scanDigits_nodigit (s : List Char) (h : ∀ c ∈ s, c.isDigit = false) (pos : Nat) :
    scanDigits s pos none = [] := by
  induction s generalizing pos with
  | nil => rfl
  | cons c cs ih =>
    have hc : c.isDigit = false := h c (by simp)
    simp [scanDigits, hc, ih (fun x hx => h x (by simp [hx]))]

theorem scanDigits_split (pre : List Char) (c : Char) (hc : c.isDigit = false)
    (rest : List Char) (pos : Nat) (st : Option Nat) :
    scanDigits (pre ++ c :: rest) pos st =
      scanDigits (pre ++ [c]) pos st ++ scanDigits rest (pos + pre.length + 1) none := by
  induction pre generalizing pos st with
  | nil =>
    cases st <;> simp [scanDigits, hc]
  | cons x xs ih =>
    have e : pos + 1 + xs.length + 1 = pos + (xs.length + 1) + 1 := by omega
    cases st <;> by_cases hx : x.isDigit = true <;>
      simp [scanDigits, hx, ih, e]

theorem Atoi_digits (d : List Char) (hne : d ≠ []) (hd : ∀ c ∈ d, c.isDigit = true) :
    Atoi d = if decimalValue d < 9223372036854775808 then some (decimalValue d : Int)
      else none := by
  cases d with
  | nil => exact absurd rfl hne
  | cons c cs =>
    have hc : c.isDigit = true := hd c (by simp)
    have h1 : c ≠ '-' := by rintro rfl; exact absurd hc (by decide)
    have h2 : c ≠ '+' := by rintro rfl; exact absurd hc (by decide)
    have hall : (c :: cs).all Char.isDigit = true := by
      rw [List.all_eq_true]; exact hd
    simp only [Atoi, h1, h2, if_false, hall, true_and]

theorem slice_mid (pre d post : List Char) :
    slice (pre ++ d ++ post) pre.length (pre.length + d.length) = d := by
  simp [slice, List.append_assoc]

theorem parseSize_of_runs (input : List Char) (a b : Nat)
    (h : FindAllDigits input = [(a, b)]) :
    parseSize input =
      match Atoi (slice input a b) with
      | none => 0
      | some i => (uint i * getMultiplier (input.drop b)) % 18446744073709551616 := by
  unfold parseSize
  rw [h]

theorem parseSize_of_not_single (input : List Char)
    (h : (FindAllDigits input).length ≠ 1) : parseSize input = 0 := by
  unfold parseSize
  split
  · next a b heq => rw [heq] at h; simp at h
  · rfl

theorem uint_natCast (v : Nat) (hv : v < 18446744073709551616) : uint (v : Int) = v := by
  unfold uint
  omega

/-- C10: `getMultiplier` looks only at which of the letters k, m, g occur in the
lower-cased argument, with priority k, then m, then g, and yields 1 when none occurs,
because the index -1 wraps to 0 in `uint(-1) + 1`; position and count of the characters
play no role.  Includes the spec's four sample values. -/
theorem getMultiplier_priority :
    (∀ spec : List Char,
      getMultiplier spec =
        if 'k' ∈ ToLower spec then 2 ^ 10
        else if 'm' ∈ ToLower spec then 2 ^ 20
        else if 'g' ∈ ToLower spec then 2 ^ 30
        else 1) ∧
    (uint (-1) + 1) % 2 ^ 64 = 0 ∧
    getMultiplier "gk".toList = 1024 ∧ getMultiplier "mb".toList = 1048576 ∧
    getMultiplier "x".toList = 1 ∧ getMultiplier "".toList = 1 := by
  refine ⟨fun spec => ?_, by decide, by decide, by decide, by decide, by decide⟩
  rw [getMultiplier_eq]
  norm_num

/-- C5: for a non-empty string `d` of ASCII decimal digits whose value fits the signed
64-bit `int`, followed by one of the suffixes "", k, m, g, K, M, G, with the product below
2^64, `parseSize` returns the value of `d` times the suffix multiplier. -/
theorem parseSize_decimal_suffix (d s : List Char) (hne : d ≠ [])
    (hd : ∀ c ∈ d, c.isDigit = true)
    (hv : decimalValue d < 2 ^ 63)
    (hs : s ∈ [[], ['k'], ['m'], ['g'], ['K'], ['M'], ['G']])
    (hm : decimalValue d * specMultiplier s < 2 ^ 64) :
    parseSize (d ++ s) = decimalValue d * specMultiplier s := by
  have hnod : ∀ c ∈ s, c.isDigit = false := by
    fin_cases hs <;> decide
  have hmult : getMultiplier s = specMultiplier s := by
    fin_cases hs <;> decide
  have hpost : ∀ c ∈ s.head?, c.isDigit = false := by
    intro c hc
    exact hnod c (List.mem_of_mem_head? hc)
  have hruns : FindAllDigits (d ++ s) = [(0, 0 + d.length)] := by
    unfold FindAllDigits
    rw [scanDigits_run_start d hne hd s hpost, scanDigits_nodigit s hnod]
  have hsl : slice (d ++ s) 0 (0 + d.length) = d := by
    simpa using slice_mid [] d s
  have hv' : decimalValue d < 9223372036854775808 := by
    have : (2 : Nat) ^ 63 = 9223372036854775808 := by norm_num
    omega
  have hm' : decimalValue d * specMultiplier s < 18446744073709551616 := by
    have : (2 : Nat) ^ 64 = 18446744073709551616 := by norm_num
    omega
  rw [parseSize_of_runs _ _ _ hruns, hsl, Atoi_digits d hne hd, if_pos hv']
  simp only [Nat.zero_add, List.drop_left]
  rw [uint_natCast _ (by omega), hmult, Nat.mod_eq_of_lt hm']

/-- Witness of C5: the spec's three samples, "4096", the default "5m" (5 MiB) and "10g". -/
theorem parseSize_decimal_suffix_witness :
    parseSize ("4096".toList ++ "".toList) = 4096 ∧
    parseSize ("5".toList ++ "m".toList) = 5242880 ∧
    parseSize ("10".toList ++ "g".toList) = 10737418240 :=
  ⟨parseSize_decimal_suffix "4096".toList "".toList (by decide) (by decide) (by decide)
    (by decide) (by decide),
   parseSize_decimal_suffix "5".toList "m".toList (by decide) (by decide) (by decide)
    (by decide) (by decide),
   parseSize_decimal_suffix "10".toList "g".toList (by decide) (by decide) (by decide)
    (by decide) (by decide)⟩

/-- C6: `parseSize` returns the sentinel 0 for every input without a decimal digit (the
empty string included), and for every input containing a digit run (a maximal block of
digits) whose value `strconv.Atoi` rejects as out of the signed 64-bit range. -/
theorem parseSize_sentinel :
    (∀ input : List Char, (∀ c ∈ input, c.isDigit = false) → parseSize input = 0) ∧
    (∀ pre d post : List Char, d ≠ [] → (∀ c ∈ d, c.isDigit = true) →
      2 ^ 63 ≤ decimalValue d →
      (∀ c ∈ pre.getLast?, c.isDigit = false) → (∀ c ∈ post.head?, c.isDigit = false) →
      parseSize (pre ++ d ++ post) = 0) := by
  constructor
  · intro input h
    apply parseSize_of_not_single
    unfold FindAllDigits
    rw [scanDigits_nodigit input h]
    simp
  · intro pre d post hne hd hv hpre hpost
    have hv' : ¬ decimalValue d < 9223372036854775808 := by
      have : (2 : Nat) ^ 63 = 9223372036854775808 := by norm_num
      omega
    have hruns : ∃ R1 R2, FindAllDigits (pre ++ d ++ post) =
        R1 ++ (pre.length, pre.length + d.length) :: R2 := by
      unfold FindAllDigits
      rcases List.eq_nil_or_concat pre with hnil | ⟨xs, c, hcat⟩
      · subst hnil
        refine ⟨[], scanDigits post (0 + d.length) none, ?_⟩
        rw [List.nil_append, scanDigits_run_start d hne hd post hpost]
        simp
      · rw [List.concat_eq_append] at hcat
        subst hcat
        have hc : c.isDigit = false := hpre c (by simp)
        refine ⟨scanDigits (xs ++ [c]) 0 none,
          scanDigits post (0 + xs.length + 1 + d.length) none, ?_⟩
        have e : xs ++ [c] ++ d ++ post = xs ++ c :: (d ++ post) := by simp
        rw [e, scanDigits_split xs c hc, scanDigits_run_start d hne hd post hpost]
        simp
    obtain ⟨R1, R2, hR⟩ := hruns
    by_cases hlen : (FindAllDigits (pre ++ d ++ post)).length = 1
    · have h12 : R1 = [] ∧ R2 = [] := by
        rw [hR] at hlen
        simp only [List.length_append, List.length_cons] at hlen
        constructor <;> apply List.eq_nil_of_length_eq_zero <;> omega
      rw [h12.1, h12.2, List.nil_append] at hR
      rw [parseSize_of_runs _ _ _ hR, slice_mid, Atoi_digits d hne hd, if_neg hv']
    · exact parseSize_of_not_single _ hlen

/-- Witness of C6: no digit at all ("m"), and a digit run one above the largest `int`. -/
theorem parseSize_sentinel_witness :
    parseSize "m".toList = 0 ∧
    parseSize ("t=".toList ++ "9223372036854775808".toList ++ "k".toList) = 0 :=
  ⟨parseSize_sentinel.1 "m".toList (by decide),
   parseSize_sentinel.2 "t=".toList "9223372036854775808".toList "k".toList
     (by decide) (by decide) (by decide) (by decide) (by decide)⟩

theorem lt_leafCount_iff (L S p : Nat) (hS : 0 < S) : p < leafCount L S ↔ p * S < L := by
  unfold leafCount
  rw [Nat.lt_iff_add_one_le, Nat.le_div_iff_mul_le hS, Nat.add_mul]
  omega

theorem int64_of_small (x : Int) (h0 : 0 ≤ x) (h1 : x < 9223372036854775808) :
    int64 x = x := by
  unfold int64
  omega

theorem bufferRead_fills : FillsRequests bufferRead id := by
  intro r len hlen
  constructor
  · intro h
    simp only [id] at h
    subst h
    have : len ≠ 0 := by omega
    simp [bufferRead, this]
  · intro h
    simp only [id] at h
    simp [bufferRead, h]

/-- One iteration of the producer loop that reads without error. -/
theorem chunkProducer_step {ρ : Type} (read : ρ → Nat → ReadResult ρ) (S : Nat)
    (fileSize : Int) (fuel : Nat) (r : ρ) (part : Nat) (totalSize : Int)
    (hmax : S ≤ maxAlloc) (herr : (read r S).err = none) :
    chunkProducer read S fileSize (fuel + 1) r part totalSize =
      if (decide ((read r S).data.length < S) ||
          (decide ((read r S).data.length = S) &&
            decide (int64 (totalSize + (read r S).data.length) = fileSize))) = true
      then some ([⟨part, (read r S).data,
          decide ((read r S).data.length < S) ||
          (decide ((read r S).data.length = S) &&
            decide (int64 (totalSize + (read r S).data.length) = fileSize)), S, 0⟩],
        ProducerEnd.closed)
      else
        match chunkProducer read S fileSize fuel (read r S).next (part + 1)
            (int64 (totalSize + (read r S).data.length)) with
        | none => none
        | some (cs, ending) => some (⟨part, (read r S).data,
            decide ((read r S).data.length < S) ||
            (decide ((read r S).data.length = S) &&
              decide (int64 (totalSize + (read r S).data.length) = fileSize)), S, 0⟩ :: cs,
            ending) := by
  rw [chunkProducer, if_neg (Nat.not_lt.2 hmax)]
  simp only [herr]

theorem chunkProducer_eof {ρ : Type} (read : ρ → Nat → ReadResult ρ) (S : Nat)
    (fileSize : Int) (fuel : Nat) (r : ρ) (part : Nat) (totalSize : Int)
    (hmax : S ≤ maxAlloc) (herr : (read r S).err ≠ none) :
    chunkProducer read S fileSize (fuel + 1) r part totalSize =
      some ([], ProducerEnd.returned) := by
  rw [chunkProducer, if_neg (Nat.not_lt.2 hmax)]
  cases h : (read r S).err with
  | none => exact absurd h herr
  | some e => simp only [h]

/-- A leaf size above the allocation limit: the producer panics in `make` before it reads. -/
theorem chunkProducer_alloc_panic {ρ : Type} (read : ρ → Nat → ReadResult ρ) (S : Nat)
    (fileSize : Int) (fuel : Nat) (r : ρ) (part : Nat) (totalSize : Int)
    (hmax : maxAlloc < S) :
    chunkProducer read S fileSize (fuel + 1) r part totalSize =
      some ([], ProducerEnd.panicked) := by
  rw [chunkProducer, if_pos hmax]

theorem chunkProducer_fill {ρ : Type} (read : ρ → Nat → ReadResult ρ) (rest : ρ → List Byte)
    (hfill : FillsRequests read rest) (S : Nat) (hS : 0 < S) (hmax : S ≤ maxAlloc)
    (fileSize : Int) (data : List Byte) (hL63 : data.length < 9223372036854775808)
    (hint : ∀ q : Nat, 0 < q → q * S < data.length → fileSize ≠ ((q * S : Nat) : Int))
    (m : Bool) (hm : m = decide (¬ S ∣ data.length ∨ fileSize = (data.length : Int))) :
    ∀ (k p : Nat) (r : ρ) (fuel : Nat), rest r = data.drop (p * S) →
      p + k = leafCount data.length S → 0 < k → k < fuel →
      chunkProducer read S fileSize fuel r p ((p * S : Nat) : Int) =
        some ((List.range' p k).map (fun i =>
          (⟨i, leafBytes data S i, decide (i + 1 = leafCount data.length S) && m, S, 0⟩ :
            chunkInput)), if m = true then ProducerEnd.closed else ProducerEnd.returned) := by
  intro k
  induction k with
  | zero => intro p r fuel _ _ h0; omega
  | succ k ih =>
    intro p r fuel hr hpk _ hfuel
    obtain ⟨f, rfl⟩ : ∃ f, fuel = f + 1 := ⟨fuel - 1, by omega⟩
    have hpN : p < leafCount data.length S := by omega
    have hpS : p * S < data.length := (lt_leafCount_iff _ _ _ hS).1 hpN
    have hne : rest r ≠ [] := by
      rw [hr]
      intro h
      have := congrArg List.length h
      simp at this
      omega
    obtain ⟨hdata, herr, hnext⟩ := (hfill r S hS).2 hne
    have hbytes : (read r S).data = leafBytes data S p := by
      rw [hdata, hr]; rfl
    have hn : (read r S).data.length = min S (data.length - p * S) := by
      rw [hdata, hr]; simp
    have hnext' : rest (read r S).next = data.drop ((p + 1) * S) := by
      rw [hnext, hr, List.drop_drop, Nat.add_mul]
      congr 1
      omega
    have hsucc : (p + 1) * S = p * S + S := by rw [Nat.add_mul]; omega
    rw [chunkProducer_step read S fileSize f r p _ hmax herr, hbytes]
    rw [hbytes] at hn
    have htot : int64 (((p * S : Nat) : Int) + ((leafBytes data S p).length : Int)) =
        ((p * S + (leafBytes data S p).length : Nat) : Int) := by
      rw [int64_of_small] <;> omega
    rw [htot]
    rcases Nat.eq_zero_or_pos k with hk0 | hkpos
    · -- last leaf
      subst hk0
      have hNle : ¬ (p + 1) * S < data.length := by
        intro h
        have := (lt_leafCount_iff _ _ _ hS).2 h
        omega
      have hpN1 : p + 1 = leafCount data.length S := by omega
      have hflag : (decide ((leafBytes data S p).length < S) ||
          (decide ((leafBytes data S p).length = S) &&
            decide (((p * S + (leafBytes data S p).length : Nat) : Int) = fileSize))) = m := by
        rw [hm]
        by_cases hlt : (leafBytes data S p).length < S
        · have hnd : ¬ S ∣ data.length := by
            intro hdvd
            obtain ⟨c, hc⟩ := hdvd
            have h1 : p * S < S * c := by omega
            have h2 : S * c < (p + 1) * S := by omega
            rw [Nat.mul_comm S c] at h1 h2
            have h3 := Nat.lt_of_mul_lt_mul_right h1
            have h4 := Nat.lt_of_mul_lt_mul_right h2
            omega
          rw [decide_eq_true hlt, decide_eq_true (Or.inl hnd : ¬ S ∣ data.length ∨ _)]
          rfl
        · have heq : (leafBytes data S p).length = S := by omega
          have hL : data.length = (p + 1) * S := by omega
          have hdvd : S ∣ data.length := ⟨p + 1, by rw [hL, Nat.mul_comm]⟩
          have hsum : p * S + (leafBytes data S p).length = data.length := by omega
          rw [decide_eq_false hlt, decide_eq_true heq, Bool.false_or, Bool.true_and, heq]
          rw [heq] at hsum
          by_cases hf : fileSize = (data.length : Int)
          · rw [decide_eq_true (Or.inr hf : ¬ S ∣ data.length ∨ _)]
            apply decide_eq_true
            rw [hf, ← hsum]
          · have hno : ¬ (¬ S ∣ data.length ∨ fileSize = (data.length : Int)) := by
              rintro (h | h)
              · exact h hdvd
              · exact hf h
            rw [decide_eq_false hno]
            apply decide_eq_false
            intro h
            apply hf
            rw [← h, ← hsum]
      rw [hflag]
      cases hmv : m with
      | true =>
        simp [hpN1]
      | false =>
        have heq : (leafBytes data S p).length = S := by
          by_contra hne'
          have hlt : (leafBytes data S p).length < S := by omega
          rw [hmv, decide_eq_true hlt] at hflag
          simp at hflag
        have hempty : rest (read r S).next = [] := by
          rw [hnext']
          apply List.drop_of_length_le
          omega
        have herr2 := ((hfill (read r S).next S hS).1 hempty).2
        obtain ⟨f2, rfl⟩ : ∃ f2, f = f2 + 1 := ⟨f - 1, by omega⟩
        rw [chunkProducer_eof read S fileSize f2 _ _ _ hmax herr2]
        simp [hpN1]
    · -- inner leaf
      have hlt1 : p + 1 < leafCount data.length S := by omega
      have hS1 : (p + 1) * S < data.length := (lt_leafCount_iff _ _ _ hS).1 hlt1
      have heq : (leafBytes data S p).length = S := by
        rw [hn]
        apply Nat.min_eq_left
        rw [hsucc] at hS1
        clear hn hint ih hL63 hpk hfuel hpN hlt1
        omega
      have hne1 : p + 1 ≠ leafCount data.length S := by omega
      have hfs : ¬ (((p * S + S : Nat) : Int) = fileSize) := by
        intro h
        apply hint (p + 1) (by omega) hS1
        rw [← h, hsucc]
      have hnlt : ¬ (leafBytes data S p).length < S := by
        rw [heq]; exact Nat.lt_irrefl S
      rw [decide_eq_false hnlt,
        decide_eq_true heq, Bool.false_or, Bool.true_and, heq, decide_eq_false hfs]
      rw [← hsucc, ih (p + 1) (read r S).next f hnext' (by omega) hkpos (by omega)]
      simp [List.range'_succ, hne1]

theorem copyInto_nat (b : List Byte) (d i : Nat) (v : List Byte)
    (h : d * i + d ≤ b.length) :
    copyInto b ((d : Int) * (i : Int)) ((d : Int) * (i : Int) + (d : Int)) v =
      some (b.take (d * i) ++ v.take (min d v.length) ++ b.drop (d * i + min d v.length)) := by
  have h1 : (0 : Int) ≤ (d : Int) * (i : Int) := by positivity
  have h2 : (d : Int) * (i : Int) ≤ (d : Int) * (i : Int) + (d : Int) := by
    have : (0 : Int) ≤ (d : Int) := by positivity
    linarith
  have h3 : (d : Int) * (i : Int) + (d : Int) ≤ (b.length : Int) := by
    exact_mod_cast h
  have e1 : ((d : Int) * (i : Int)).toNat = d * i := by
    rw [← Int.natCast_mul, Int.toNat_natCast]
  have e2 : ((d : Int) * (i : Int) + (d : Int) - (d : Int) * (i : Int)).toNat = d := by
    rw [add_sub_cancel_left, Int.toNat_natCast]
  unfold copyInto
  rw [if_pos ⟨h1, h2, h3⟩]
  simp only [e1, e2]

theorem flatten_splice (d : Nat) (w : List Byte) (n : Nat) (hn : n ≤ d) :
    ∀ (bs : List (List Byte)) (i : Nat) (old : List Byte),
      (∀ x ∈ bs, x.length = d) → bs[i]? = some old →
      bs.flatten.take (d * i) ++ w ++ bs.flatten.drop (d * i + n) =
        (bs.set i (w ++ old.drop n)).flatten := by
  intro bs
  induction bs with
  | nil => intro i old _ h; simp at h
  | cons x xs ih =>
    intro i old hlen hget
    have hx : x.length = d := hlen x (by simp)
    cases i with
    | zero =>
      simp only [List.getElem?_cons_zero, Option.some.injEq] at hget
      subst hget
      simp only [Nat.mul_zero, List.take_zero, List.nil_append, Nat.zero_add, List.set_cons_zero,
        List.flatten_cons, List.append_assoc]
      rw [List.drop_append_of_le_length (by omega)]
    | succ j =>
      simp only [List.getElem?_cons_succ] at hget
      have hxs : ∀ y ∈ xs, y.length = d := fun y hy => hlen y (by simp [hy])
      have e1 : d * (j + 1) = x.length + d * j := by rw [hx, Nat.mul_succ]; omega
      have e2 : d * (j + 1) + n = x.length + (d * j + n) := by rw [e1]; omega
      simp only [List.flatten_cons, List.set_cons_succ]
      rw [e2, List.drop_append, e1, List.take_append, ← ih j old hxs hget]
      simp only [List.append_assoc]

theorem blocks_length (d : Nat) (g : Nat → List Byte) (hg : ∀ j, (g j).length = d) (N : Nat) :
    (((List.range N).map g).flatten).length = N * d := by
  induction N with
  | zero => simp
  | succ n ih =>
    rw [List.range_succ, List.map_append, List.flatten_append, List.length_append, ih]
    simp [hg, Nat.succ_mul]

theorem placeSlot_length (d : Nat) (g : Nat → List Byte) (hg : ∀ j, (g j).length = d)
    (e : Nat × List Byte) (j : Nat) : (placeSlot d g e j).length = d := by
  unfold placeSlot
  split
  · rw [List.length_append, List.length_take, List.length_drop, hg]
    omega
  · exact hg j

theorem place_step (d N : Nat) (g : Nat → List Byte) (hg : ∀ j, (g j).length = d)
    (e : Nat × List Byte) (he : e.1 < N) :
    copyInto ((List.range N).map g).flatten ((d : Int) * (e.1 : Int))
        ((d : Int) * (e.1 : Int) + (d : Int)) e.2 =
      some ((List.range N).map (placeSlot d g e)).flatten := by
  have hlen := blocks_length d g hg N
  have hle : d * e.1 + d ≤ (((List.range N).map g).flatten).length := by
    rw [hlen]
    have : d * (e.1 + 1) ≤ d * N := Nat.mul_le_mul_left d he
    rw [Nat.mul_succ, Nat.mul_comm d N] at this
    exact this
  rw [copyInto_nat _ d e.1 e.2 hle]
  congr 1
  rw [flatten_splice d _ _ (Nat.min_le_left _ _) ((List.range N).map g) e.1 (g e.1)
    (by intro x hx; obtain ⟨j, _, rfl⟩ := List.mem_map.1 hx; exact hg j)
    (by simp [he])]
  congr 1
  apply List.ext_getElem?
  intro j
  rw [List.getElem?_set]
  by_cases hj : e.1 = j
  · subst hj
    simp [he, placeSlot]
  · have hj' : ¬ j = e.1 := fun h => hj h.symm
    rw [if_neg hj, List.getElem?_map, List.getElem?_map]
    cases hr : (List.range N)[j]? with
    | none => rfl
    | some k =>
      have hk : k = j := by
        rw [List.getElem?_range] at hr
        · exact (Option.some.inj hr).symm
        · by_contra hge
          rw [List.getElem?_eq_none (by simpa using Nat.le_of_not_lt hge)] at hr
          cases hr
      subst hk
      simp [placeSlot, hj']

theorem place_fold (d N : Nat) :
    ∀ (es : List (Nat × List Byte)) (g : Nat → List Byte), (∀ e ∈ es, e.1 < N) →
      (∀ j, (g j).length = d) →
      placeDigests (d : Int) es ((List.range N).map g).flatten =
        some ((List.range N).map (es.foldl (placeSlot d) g)).flatten := by
  intro es
  induction es with
  | nil => intro g _ _; rfl
  | cons e rest ih =>
    intro g hes hg
    rw [placeDigests, place_step d N g hg e (hes e (by simp))]
    simp only [List.foldl_cons]
    exact ih _ (fun x hx => hes x (by simp [hx])) (placeSlot_length d g hg e)

theorem fold_untouched (d : Nat) :
    ∀ (es : List (Nat × List Byte)) (g : Nat → List Byte) (j : Nat),
      j ∉ es.map Prod.fst → es.foldl (placeSlot d) g j = g j := by
  intro es
  induction es with
  | nil => intro g j _; rfl
  | cons e rest ih =>
    intro g j hj
    simp only [List.map_cons, List.mem_cons, not_or] at hj
    rw [List.foldl_cons, ih _ j hj.2]
    simp [placeSlot, hj.1]

theorem fold_placed (d : Nat) :
    ∀ (es : List (Nat × List Byte)) (g : Nat → List Byte), (es.map Prod.fst).Nodup →
      ∀ j v, (j, v) ∈ es →
      es.foldl (placeSlot d) g j =
        v.take (min d v.length) ++ (g j).drop (min d v.length) := by
  intro es
  induction es with
  | nil => intro g _ j v h; simp at h
  | cons e rest ih =>
    intro g hnd j v hmem
    simp only [List.map_cons, List.nodup_cons] at hnd
    rw [List.foldl_cons]
    rcases List.mem_cons.1 hmem with h | h
    · subst h
      rw [fold_untouched d rest _ j hnd.1]
      simp [placeSlot]
    · have hne : j ≠ e.1 := by
        intro hje
        apply hnd.1
        rw [← hje]
        exact List.mem_map.2 ⟨(j, v), h, rfl⟩
      rw [ih _ hnd.2 j v h]
      simp [placeSlot, hne]

theorem zeros_blocks (d N : Nat) :
    List.replicate (N * d) (0 : Byte) =
      ((List.range N).map (fun _ => List.replicate d (0 : Byte))).flatten := by
  induction N with
  | zero => simp
  | succ n ih =>
    rw [List.range_succ, List.map_append, List.flatten_append, ← ih, Nat.succ_mul,
      List.replicate_add]
    simp

theorem slot_of_zeros (d : Nat) (v : List Byte) :
    v.take (min d v.length) ++ (List.replicate d (0 : Byte)).drop (min d v.length) =
      slotBytes d v := by
  unfold slotBytes
  rw [List.drop_replicate]
  congr 1
  · rcases Nat.le_total d v.length with h | h
    · rw [Nat.min_eq_left h]
    · rw [Nat.min_eq_right h, List.take_length, List.take_of_length_le h]
  · congr 1
    omega

/-- The concatenation buffer does not depend on the order in which the map is walked:
slot `i` receives the digest of leaf `i`, cut or zero-padded to `d` bytes. -/
theorem concatDigests_perm (d N : Nat) (dig : Nat → List Byte)
    (es : List (Nat × List Byte))
    (hperm : es.Perm ((List.range N).map (fun i => (i, dig i)))) :
    concatDigests (d : Int) es N =
      some ((List.range N).map (fun i => slotBytes d (dig i))).flatten := by
  have hmem : ∀ e, e ∈ es ↔ ∃ i, i < N ∧ e = (i, dig i) := by
    intro e
    rw [hperm.mem_iff, List.mem_map]
    constructor
    · rintro ⟨i, hi, rfl⟩; exact ⟨i, List.mem_range.1 hi, rfl⟩
    · rintro ⟨i, hi, rfl⟩; exact ⟨i, List.mem_range.2 hi, rfl⟩
  have hkeys : (es.map Prod.fst).Nodup := by
    have hp := hperm.map Prod.fst
    rw [hp.nodup_iff, List.map_map]
    have : (Prod.fst ∘ fun i => (i, dig i)) = (id : Nat → Nat) := rfl
    rw [this, List.map_id]
    exact List.nodup_range N
  have hmk : makeBytes ((N : Int) * (d : Int)) = some (List.replicate (N * d) 0) := by
    unfold makeBytes
    have h0 : ¬ ((N : Int) * (d : Int) < 0) := by
      have : (0 : Int) ≤ (N : Int) * (d : Int) := by positivity
      omega
    rw [if_neg h0, ← Int.natCast_mul, Int.toNat_natCast]
  unfold concatDigests
  rw [hmk, zeros_blocks]
  simp only []
  rw [place_fold d N es _ (fun e he => by
    obtain ⟨i, hi, rfl⟩ := (hmem e).1 he; exact hi) (fun _ => List.length_replicate _ _)]
  congr 2
  apply List.map_congr_left
  intro i hi
  have hi' := List.mem_range.1 hi
  rw [fold_placed d es _ hkeys i (dig i) ((hmem _).2 ⟨i, hi', rfl⟩)]
  exact slot_of_zeros d (dig i)

theorem slotBytes_of_length (d : Nat) (v : List Byte) (h : v.length = d) :
    slotBytes d v = v := by
  unfold slotBytes
  rw [h, Nat.sub_self, ← h, List.take_length]
  simp

theorem mapInsert_fresh (m : List (Nat × List Byte)) (k : Nat) (v : List Byte)
    (h : k ∉ m.map Prod.fst) : mapInsert m k v = m ++ [(k, v)] := by
  induction m with
  | nil => rfl
  | cons e rest ih =>
    simp only [List.map_cons, List.mem_cons, not_or] at h
    have hne : ¬ e.1 = k := fun he => h.1 he.symm
    rw [mapInsert, if_neg hne, ih h.2]
    rfl

theorem collect_fold (l : List chunkOutput) :
    ∀ acc : List (Nat × List Byte),
      (acc.map Prod.fst ++ l.map chunkOutput.part).Nodup →
      l.foldl (fun m r => mapInsert m r.part r.digest) acc =
        acc ++ l.map (fun r => (r.part, r.digest)) := by
  induction l with
  | nil => intro acc _; simp
  | cons r rest ih =>
    intro acc hnd
    have hfresh : r.part ∉ acc.map Prod.fst := by
      intro hmem
      rw [List.nodup_append] at hnd
      exact hnd.2.2 hmem (by simp)
    rw [List.foldl_cons, mapInsert_fresh acc r.part r.digest hfresh, ih]
    · simp
    · have hp : (acc.map Prod.fst ++ (r :: rest).map chunkOutput.part).Perm
          ((acc ++ [(r.part, r.digest)]).map Prod.fst ++ rest.map chunkOutput.part) := by
        simp only [List.map_cons, List.map_append, List.map_nil, List.append_assoc,
          List.singleton_append]
        exact List.Perm.refl _
      exact hp.nodup_iff.1 hnd

theorem collectDigests_nodup (l : List chunkOutput) (h : (l.map chunkOutput.part).Nodup) :
    collectDigests l = l.map (fun r => (r.part, r.digest)) := by
  unfold collectDigests
  rw [collect_fold l [] (by simpa using h)]
  rfl

theorem workers_all {σ : Type} (algo : hashDesc σ) (hm : Hash σ) (g : Flags)
    (mk : Nat → chunkInput) (o : Nat → chunkOutput) :
    ∀ (is : List Nat), (∀ i ∈ is, hashChunk algo hm g (mk i) = some (o i)) →
      ∀ live, 0 < live →
      calcChunkWorkers algo hm g live (is.map mk) = (is.map o, live) := by
  intro is
  induction is with
  | nil => intro _ live _; cases live <;> rfl
  | cons i rest ih =>
    intro h live hl
    obtain ⟨n, rfl⟩ : ∃ n, live = n + 1 := ⟨live - 1, by omega⟩
    rw [List.map_cons, calcChunkWorkers, h i (by simp)]
    simp only []
    rw [ih (fun j hj => h j (by simp [hj])) (n + 1) hl]
    rfl

theorem leafCount_pos (L S : Nat) (hS : 0 < S) (hL : 0 < L) : 0 < leafCount L S :=
  (lt_leafCount_iff L S 0 hS).2 (by omega)

theorem leafCount_le (L S : Nat) (hS : 0 < S) : leafCount L S ≤ L := by
  by_contra h
  have h1 : L < leafCount L S := by omega
  have h2 := (lt_leafCount_iff L S L hS).1 h1
  have h3 : L * 1 ≤ L * S := Nat.mul_le_mul_left L hS
  omega

/-- The chunks a filling reader yields when the last leaf gets marked. -/
theorem chunkProducer_marked {ρ : Type} (read : ρ → Nat → ReadResult ρ)
    (rest : ρ → List Byte) (hfill : FillsRequests read rest) (S : Nat) (hS : 0 < S)
    (hmax : S ≤ maxAlloc) (fileSize : Int) (r : ρ) (hL : 0 < (rest r).length)
    (hL63 : (rest r).length < 9223372036854775808)
    (hint : ∀ q : Nat, 0 < q → q * S < (rest r).length → fileSize ≠ ((q * S : Nat) : Int))
    (hmark : ¬ S ∣ (rest r).length ∨ fileSize = ((rest r).length : Int))
    (fuel : Nat) (hfuel : leafCount (rest r).length S < fuel) :
    chunkProducer read S fileSize fuel r 0 0 =
      some ((List.range (leafCount (rest r).length S)).map (fun i =>
        (⟨i, leafBytes (rest r) S i, decide (i + 1 = leafCount (rest r).length S), S, 0⟩ :
          chunkInput)), ProducerEnd.closed) := by
  have h := chunkProducer_fill read rest hfill S hS hmax fileSize (rest r) hL63 hint true
    (decide_eq_true hmark).symm (leafCount (rest r).length S) 0 r fuel (by simp) (by simp)
    (leafCount_pos _ _ hS hL) hfuel
  have e : ((0 * S : Nat) : Int) = 0 := by simp
  rw [e] at h
  rw [h, List.range_eq_range']
  simp

theorem calcStream_fill {σ ρ : Type} (algo : hashDesc σ) (hm : Hash σ) (g : Flags)
    (read : ρ → Nat → ReadResult ρ) (rest : ρ → List Byte) (hfill : FillsRequests read rest)
    (r : ρ) (fileSize : Int) (sched : Schedule) (hsched : sched.Valid)
    (d : Nat) (hd : g.sizeFlag = (d : Int)) (hS : 0 < g.leafSize)
    (hmax : g.leafSize ≤ maxAlloc) (hcpu : 0 < g.cpu)
    (hL : 0 < (rest r).length) (hL63 : (rest r).length < 9223372036854775808)
    (hint : ∀ q : Nat, 0 < q → q * g.leafSize < (rest r).length →
      fileSize ≠ ((q * g.leafSize : Nat) : Int))
    (hmark : ¬ g.leafSize ∣ (rest r).length ∨ fileSize = ((rest r).length : Int))
    (dg : Nat → List Byte)
    (hleaf : ∀ i, i < leafCount (rest r).length g.leafSize →
      hashChunk algo hm g ⟨i, leafBytes (rest r) g.leafSize i,
        decide (i + 1 = leafCount (rest r).length g.leafSize), g.leafSize, 0⟩ =
        some ⟨dg i, i⟩)
    (fuel : Nat) (hfuel : leafCount (rest r).length g.leafSize < fuel) :
    calcStream algo hm g read r fileSize sched fuel =
      some (match algo.maker (uint8 g.sizeFlag) 0 true 1 (uint32 g.leafSize) with
        | .error e => Outcome.error e
        | .ok s => Outcome.digest (hm.Sum (hm.Copy (hm.Reset s)
            ((List.range (leafCount (rest r).length g.leafSize)).map
              (fun i => slotBytes d (dg i))).flatten).1)) := by
  have hprod := chunkProducer_marked read rest hfill g.leafSize hS hmax fileSize r hL hL63
    hint hmark fuel hfuel
  have hlive : 0 < g.cpu.toNat := by omega
  have hwork := workers_all algo hm g
    (fun i => (⟨i, leafBytes (rest r) g.leafSize i,
        decide (i + 1 = leafCount (rest r).length g.leafSize), g.leafSize, 0⟩ : chunkInput))
    (fun i => (⟨dg i, i⟩ : chunkOutput))
    (List.range (leafCount (rest r).length g.leafSize))
    (fun i hi => hleaf i (List.mem_range.1 hi)) g.cpu.toNat hlive
  have harr := hsched.1 ((List.range (leafCount (rest r).length g.leafSize)).map
    (fun i => (⟨dg i, i⟩ : chunkOutput)))
  have hparts : ((sched.arrival ((List.range (leafCount (rest r).length g.leafSize)).map
      (fun i => (⟨dg i, i⟩ : chunkOutput)))).map chunkOutput.part).Nodup := by
    rw [(harr.map chunkOutput.part).nodup_iff, List.map_map]
    have : (chunkOutput.part ∘ fun i => (⟨dg i, i⟩ : chunkOutput)) = (id : Nat → Nat) := rfl
    rw [this, List.map_id]
    exact List.nodup_range _
  have hcoll := collectDigests_nodup _ hparts
  have hentries : (sched.iteration (collectDigests (sched.arrival
      ((List.range (leafCount (rest r).length g.leafSize)).map
        (fun i => (⟨dg i, i⟩ : chunkOutput)))))).Perm
      ((List.range (leafCount (rest r).length g.leafSize)).map (fun i => (i, dg i))) := by
    refine (hsched.2 _).trans ?_
    rw [hcoll]
    have := harr.map (fun r : chunkOutput => (r.part, r.digest))
    rw [List.map_map] at this
    exact this
  have hlen : (collectDigests (sched.arrival
      ((List.range (leafCount (rest r).length g.leafSize)).map
        (fun i => (⟨dg i, i⟩ : chunkOutput))))).length =
      leafCount (rest r).length g.leafSize := by
    rw [hcoll, List.length_map, harr.length_eq, List.length_map, List.length_range]
  have hcat := concatDigests_perm d _ dg _ hentries
  unfold calcStream
  rw [hprod]
  have hnp : ¬ (ProducerEnd.closed = ProducerEnd.panicked) := by decide
  simp only [hnp, if_false, hwork, hlen, hd, hcat]
  have hclosed : ¬ (g.cpu.toNat ≠ 0 ∧ ProducerEnd.closed = ProducerEnd.returned) := by
    rintro ⟨_, h⟩
    exact absurd h (by decide)
  rw [if_neg hclosed]
  cases algo.maker (uint8 (d : Int)) 0 true 1 (uint32 g.leafSize) <;> rfl

theorem fileSize_not_inner (S L : Nat) (fileSize : Int)
    (hsize : fileSize = -1 ∨ fileSize = (L : Int)) :
    ∀ q : Nat, 0 < q → q * S < L → fileSize ≠ ((q * S : Nat) : Int) := by
  intro q _ hq h
  rcases hsize with h1 | h1
  · rw [h1] at h
    have : (0 : Int) ≤ ((q * S : Nat) : Int) := Int.natCast_nonneg _
    omega
  · rw [h1] at h
    have : L = q * S := by exact_mod_cast h
    omega

theorem two_pow_63 : (2 : Nat) ^ 63 = 9223372036854775808 := by norm_num

/-- The two ways `calcStream` is called on an input that ends with a marked leaf: the length
unknown and not a multiple of the leaf size, or the length known. -/
theorem mode_split (S L : Nat) (fileSize : Int)
    (hmode : (fileSize = -1 ∧ ¬ S ∣ L) ∨ fileSize = (L : Int)) :
    (fileSize = -1 ∨ fileSize = (L : Int)) ∧ (¬ S ∣ L ∨ fileSize = (L : Int)) := by
  rcases hmode with ⟨h1, h2⟩ | h
  · exact ⟨Or.inl h1, Or.inl h2⟩
  · exact ⟨Or.inr h, Or.inr h⟩

/-- C2, the claim as stated is false: with the leaf size 2^63 - 1 (the value `parseSize`
returns for "9223372036854775807") on the three bytes "abc" of unknown length, the
producer panics in `make([]byte, leafSize)` before it reads: it sends no chunk and does not
close the chunk queue, where the claim has one chunk of three bytes and a closed queue. -/
theorem chunkProducer_huge_leaf_panics :
    parseSize "9223372036854775807".toList = 9223372036854775807 ∧
    chunkProducer bufferRead 9223372036854775807 (-1) 2 ([97, 98, 99] : List Byte) 0 0 =
      some ([], ProducerEnd.panicked) ∧
    chunkProducer bufferRead 9223372036854775807 (-1) 2 ([97, 98, 99] : List Byte) 0 0 ≠
      some ((List.range (leafCount 3 9223372036854775807)).map (fun i =>
        (⟨i, (List.drop (i * 9223372036854775807) ([97, 98, 99] : List Byte)).take
          9223372036854775807, decide (i + 1 = leafCount 3 9223372036854775807),
          9223372036854775807, 0⟩ : chunkInput)), ProducerEnd.closed) := by
  decide

/-- C2 as amended: over a reader that fills each request while bytes remain (as
`bytes.Buffer` does), for an input of `L > 0` bytes and a leaf size `S > 0` that `make` can
allocate (`S ≤ maxAlloc`), with either the length unknown (`fileSize = -1`) and `L` not a
multiple of `S`, or the total length passed as `fileSize = L`, the chunk producer of
`calcStream` sends exactly the `N = ⌈L/S⌉` chunks with part indices 0, 1, ..., N-1 in that
order, chunk `i` holding the input bytes `[i*S, min((i+1)*S, L))`, `lastChunk` set on chunk
N-1 only, and then closes the chunk queue.  (`L < 2^63`: lengths are Go `int`s.) -/
theorem chunkProducer_emits_leaves {ρ : Type} (read : ρ → Nat → ReadResult ρ)
    (rest : ρ → List Byte) (hfill : FillsRequests read rest) (S : Nat) (hS : 0 < S)
    (hmax : S ≤ maxAlloc)
    (fileSize : Int) (r : ρ) (hL : 0 < (rest r).length) (hL63 : (rest r).length < 2 ^ 63)
    (hmode : (fileSize = -1 ∧ ¬ S ∣ (rest r).length) ∨ fileSize = ((rest r).length : Int))
    (fuel : Nat) (hfuel : leafCount (rest r).length S < fuel) :
    chunkProducer read S fileSize fuel r 0 0 =
      some ((List.range (leafCount (rest r).length S)).map (fun i =>
        (⟨i, (List.drop (i * S) (rest r)).take S,
          decide (i + 1 = leafCount (rest r).length S), S, 0⟩ : chunkInput)),
        ProducerEnd.closed) := by
  rw [two_pow_63] at hL63
  obtain ⟨hsize, hmark⟩ := mode_split S _ fileSize hmode
  exact chunkProducer_marked read rest hfill S hS hmax fileSize r hL hL63
    (fileSize_not_inner S _ fileSize hsize) hmark fuel hfuel

/-- Witness of the amended C2: 6000 zero bytes with leaf size 4096 and unknown length give
two chunks of 4096 and 1904 bytes with part indices 0 and 1, only the second marked last,
and a closed queue. -/
theorem chunkProducer_emits_leaves_witness :
    chunkProducer bufferRead 4096 (-1) 3 (List.replicate 6000 (0 : Byte)) 0 0 =
      some ([⟨0, List.replicate 4096 0, false, 4096, 0⟩,
             ⟨1, List.replicate 1904 0, true, 4096, 0⟩], ProducerEnd.closed) := by
  have hlen : (id (List.replicate 6000 (0 : Byte))).length = 6000 := List.length_replicate _ _
  have hN : leafCount 6000 4096 = 2 := by decide
  have hr : List.range 2 = [0, 1] := by decide
  have h := chunkProducer_emits_leaves bufferRead id bufferRead_fills 4096 (by decide)
    (by decide) (-1) (List.replicate 6000 (0 : Byte)) (by rw [hlen]; decide)
    (by rw [hlen]; decide) (Or.inl ⟨rfl, by rw [hlen]; decide⟩) 3 (by rw [hlen, hN]; decide)
  rw [hlen, hN, hr] at h
  have e0 : 4096 ⊓ (6000 - 0 * 4096) = 4096 := by decide
  have e1 : 4096 ⊓ (6000 - 1 * 4096) = 1904 := by decide
  simp only [List.map_cons, List.map_nil, id, List.drop_replicate, List.take_replicate, e0,
    e1] at h
  exact h

theorem uint8_small (d : Nat) (h : d < 256) : uint8 (d : Int) = d := by
  unfold uint8
  omega

theorem uint32_small (S : Nat) (h : S < 4294967296) : uint32 S = S := by
  unfold uint32
  omega

theorem uint64_small (i : Nat) (h : i < 18446744073709551616) : uint64 i = i := by
  unfold uint64
  omega

theorem hashChunk_ok {σ : Type} (algo : hashDesc σ) (hm : Hash σ) (g : Flags)
    (c : chunkInput) (s : σ)
    (hmk : algo.maker (uint8 g.sizeFlag) (uint64 c.part) c.lastChunk 0 (uint32 c.leafSize) =
      .ok s)
    (hcp : (hm.Copy (hm.Reset s) c.partBuffer).2 = none) :
    hashChunk algo hm g c = some ⟨hm.Sum (hm.Copy (hm.Reset s) c.partBuffer).1, c.part⟩ := by
  unfold hashChunk
  rw [hmk]
  simp only [hcp]

theorem hashChunk_fault {σ : Type} (algo : hashDesc σ) (hm : Hash σ) (g : Flags)
    (c : chunkInput) (s : σ)
    (hmk : algo.maker (uint8 g.sizeFlag) (uint64 c.part) c.lastChunk 0 (uint32 c.leafSize) =
      .ok s)
    (hcp : (hm.Copy (hm.Reset s) c.partBuffer).2 ≠ none) :
    hashChunk algo hm g c = some ⟨[], c.part⟩ := by
  unfold hashChunk
  rw [hmk]
  cases h : (hm.Copy (hm.Reset s) c.partBuffer).2 with
  | none => exact absurd h hcp
  | some e => simp only [h]

/-- C1: over a hash factory `H` that succeeds (construction and absorbing never fail, and a
hash of size `d` yields `d` bytes), for input bytes of length `L > 0` read through a reader
that fills each request while bytes remain, leaf size `S > 0` and digest size `d` (within the
`uint32` and `uint8` parameter types of the factory), at least one worker, and either the
length unknown (`fileSize = -1`) and `L` not a multiple of `S`, or `fileSize = L`: under
every order in which the results arrive and the map is walked, `calcStream` returns, without
error, the hash `H(d, 0, true, 1, S)` of the concatenation, in ascending order of
`i < N = ⌈L/S⌉`, of the leaf digests `H(d, i, i = N-1, 0, S)` of the input bytes
`[i*S, min((i+1)*S, L))`.  (`L < 2^63`: lengths are Go `int`s.) -/
theorem calcStream_tree_digest {σ ρ : Type} (algo : hashDesc σ) (hm : Hash σ)
    (H : Nat → Nat → Bool → Nat → Nat → List Byte → List Byte)
    (hH : ∀ size offset lastNode depth leafSize p, ∃ s,
      algo.maker size offset lastNode depth leafSize = .ok s ∧
      (hm.Copy (hm.Reset s) p).2 = none ∧
      hm.Sum (hm.Copy (hm.Reset s) p).1 = H size offset lastNode depth leafSize p)
    (d S : Nat) (cpu : Int) (hd : d < 256) (hS32 : S < 2 ^ 32) (hS : 0 < S) (hcpu : 0 < cpu)
    (hlen : ∀ offset lastNode p, (H d offset lastNode 0 S p).length = d)
    (read : ρ → Nat → ReadResult ρ) (rest : ρ → List Byte) (hfill : FillsRequests read rest)
    (r : ρ) (fileSize : Int) (hL : 0 < (rest r).length) (hL63 : (rest r).length < 2 ^ 63)
    (hmode : (fileSize = -1 ∧ ¬ S ∣ (rest r).length) ∨ fileSize = ((rest r).length : Int))
    (sched : Schedule) (hsched : sched.Valid)
    (fuel : Nat) (hfuel : leafCount (rest r).length S < fuel) :
    calcStream algo hm ⟨(d : Int), cpu, S⟩ read r fileSize sched fuel =
      some (Outcome.digest (H d 0 true 1 S
        ((List.range (leafCount (rest r).length S)).map (fun i =>
          H d i (decide (i + 1 = leafCount (rest r).length S)) 0 S
            ((List.drop (i * S) (rest r)).take S))).flatten)) := by
  rw [two_pow_63] at hL63
  obtain ⟨hsize, hmark⟩ := mode_split S _ fileSize hmode
  have hS32' : S < 4294967296 := by
    have : (2 : Nat) ^ 32 = 4294967296 := by norm_num
    omega
  have hmax : S ≤ maxAlloc := by
    unfold maxAlloc
    omega
  have hNle := leafCount_le (rest r).length S hS
  have hleaf : ∀ i, i < leafCount (rest r).length S →
      hashChunk algo hm ⟨(d : Int), cpu, S⟩ ⟨i, leafBytes (rest r) S i,
        decide (i + 1 = leafCount (rest r).length S), S, 0⟩ =
        some ⟨H d i (decide (i + 1 = leafCount (rest r).length S)) 0 S
          (leafBytes (rest r) S i), i⟩ := by
    intro i hi
    obtain ⟨s, h1, h2, h3⟩ := hH d i (decide (i + 1 = leafCount (rest r).length S)) 0 S
      (leafBytes (rest r) S i)
    have hi64 : i < 18446744073709551616 := by omega
    rw [hashChunk_ok algo hm _ _ s
      (by simpa [uint8_small d hd, uint64_small i hi64, uint32_small S hS32'] using h1) h2]
    simp only [h3]
  have hmain := calcStream_fill algo hm ⟨(d : Int), cpu, S⟩ read rest hfill r fileSize sched
    hsched d rfl hS hmax hcpu hL hL63 (fileSize_not_inner S _ fileSize hsize) hmark _ hleaf
    fuel hfuel
  rw [hmain]
  obtain ⟨s, h1, _, h3⟩ := hH d 0 true 1 S
    ((List.range (leafCount (rest r).length S)).map (fun i =>
      slotBytes d (H d i (decide (i + 1 = leafCount (rest r).length S)) 0 S
        (leafBytes (rest r) S i)))).flatten
  simp only [uint8_small d hd, uint32_small S hS32', h1, h3]
  have hslots : (List.range (leafCount (rest r).length S)).map (fun i =>
      slotBytes d (H d i (decide (i + 1 = leafCount (rest r).length S)) 0 S
        (leafBytes (rest r) S i))) =
      (List.range (leafCount (rest r).length S)).map (fun i =>
        H d i (decide (i + 1 = leafCount (rest r).length S)) 0 S
          ((List.drop (i * S) (rest r)).take S)) := by
    apply List.map_congr_left
    intro i _
    rw [slotBytes_of_length d _ (hlen _ _ _)]
    rfl
  rw [hslots]

theorem recordedHash_length (size offset : Nat) (lastNode : Bool) (depth leafSize : Nat)
    (p : List Byte) : (recordedHash size offset lastNode depth leafSize p).length = size := by
  unfold recordedHash recordedSum
  exact List.length_replicate _ _

theorem inOrder_valid : Schedule.inOrder.Valid :=
  ⟨fun l => List.Perm.refl l, fun l => List.Perm.refl l⟩

/-- Witness of C1 (the input of `TestSimpleTree`): 6000 zero bytes, leaf size 4096, digest
size 64 and unknown length give the root hash over the digest of leaf 0 (4096 bytes,
offset 0, not last) followed by the digest of leaf 1 (1904 bytes, offset 1, last). -/
theorem calcStream_tree_digest_witness :
    calcStream recordingAlgo recordingHash ⟨64, 8, 4096⟩ bufferRead
        (List.replicate 6000 (0 : Byte)) (-1) Schedule.inOrder 3 =
      some (Outcome.digest (recordedHash 64 0 true 1 4096
        (recordedHash 64 0 false 0 4096 (List.replicate 4096 0) ++
          recordedHash 64 1 true 0 4096 (List.replicate 1904 0)))) := by
  have hlen : (id (List.replicate 6000 (0 : Byte))).length = 6000 := List.length_replicate _ _
  have hN : leafCount 6000 4096 = 2 := by decide
  have hr : List.range 2 = [0, 1] := by decide
  have h := calcStream_tree_digest recordingAlgo recordingHash recordedHash
    (fun _ _ _ _ _ _ => ⟨_, rfl, rfl, rfl⟩) 64 4096 8 (by decide) (by decide) (by decide)
    (by decide) (fun _ _ _ => recordedHash_length _ _ _ _ _ _) bufferRead id bufferRead_fills
    (List.replicate 6000 (0 : Byte)) (-1) (by rw [hlen]; decide) (by rw [hlen]; decide)
    (Or.inl ⟨rfl, by rw [hlen]; decide⟩) Schedule.inOrder inOrder_valid 3
    (by rw [hlen, hN]; decide)
  rw [hlen, hN, hr] at h
  have e0 : 4096 ⊓ (6000 - 0 * 4096) = 4096 := by decide
  have e1 : 4096 ⊓ (6000 - 1 * 4096) = 1904 := by decide
  simp only [List.map_cons, List.map_nil, id, List.drop_replicate, List.take_replicate, e0, e1,
    List.flatten_cons, List.flatten_nil, List.append_nil] at h
  exact h

theorem slotBytes_length (d : Nat) (v : List Byte) : (slotBytes d v).length = d := by
  unfold slotBytes
  rw [List.length_append, List.length_take, List.length_replicate]
  omega

theorem flatten_block (d : Nat) :
    ∀ (bs : List (List Byte)) (i : Nat) (x : List Byte),
      (∀ y ∈ bs, y.length = d) → bs[i]? = some x →
      (bs.flatten.drop (i * d)).take d = x := by
  intro bs
  induction bs with
  | nil => intro i x _ h; simp at h
  | cons y ys ih =>
    intro i x hlen hget
    have hy : y.length = d := hlen y (by simp)
    cases i with
    | zero =>
      simp only [List.getElem?_cons_zero, Option.some.injEq] at hget
      subst hget
      rw [Nat.zero_mul, List.drop_zero, List.flatten_cons, ← hy, List.take_left]
    | succ j =>
      simp only [List.getElem?_cons_succ] at hget
      have e : (j + 1) * d = y.length + j * d := by rw [hy, Nat.succ_mul]; omega
      rw [List.flatten_cons, e, List.drop_append]
      exact ih j x (fun z hz => hlen z (by simp [hz])) hget

/-- C7: digest assembly does not depend on the order of arrival.  For `N` leaf digests of
`d` bytes keyed by 0..N-1, received in any order and with the map walked in any order, the
concatenation buffer has `N * d` bytes, its bytes `[i*d, (i+1)*d)` are the digest of leaf
`i`, and it is the concatenation of the digests in ascending index order; the root digest,
computed from this buffer alone, is therefore the same for every completion order. -/
theorem concat_order_independent (N d : Nat) (dig : Nat → List Byte)
    (hlen : ∀ i, i < N → (dig i).length = d)
    (arrival : List chunkOutput)
    (harr : arrival.Perm ((List.range N).map (fun i => (⟨dig i, i⟩ : chunkOutput))))
    (entries : List (Nat × List Byte)) (hwalk : entries.Perm (collectDigests arrival)) :
    ∃ b, concatDigests (d : Int) entries (collectDigests arrival).length = some b ∧
      b.length = N * d ∧
      (∀ i, i < N → (b.drop (i * d)).take d = dig i) ∧
      b = ((List.range N).map dig).flatten := by
  have hparts : (arrival.map chunkOutput.part).Nodup := by
    rw [(harr.map chunkOutput.part).nodup_iff, List.map_map]
    have : (chunkOutput.part ∘ fun i => (⟨dig i, i⟩ : chunkOutput)) = (id : Nat → Nat) := rfl
    rw [this, List.map_id]
    exact List.nodup_range _
  have hcoll := collectDigests_nodup arrival hparts
  have hentries : entries.Perm ((List.range N).map (fun i => (i, dig i))) := by
    refine hwalk.trans ?_
    rw [hcoll]
    have := harr.map (fun r : chunkOutput => (r.part, r.digest))
    rw [List.map_map] at this
    exact this
  have hcount : (collectDigests arrival).length = N := by
    rw [hcoll, List.length_map, harr.length_eq, List.length_map, List.length_range]
  have hslots : (List.range N).map (fun i => slotBytes d (dig i)) = (List.range N).map dig := by
    apply List.map_congr_left
    intro i hi
    exact slotBytes_of_length d _ (hlen i (List.mem_range.1 hi))
  refine ⟨((List.range N).map (fun i => slotBytes d (dig i))).flatten, ?_, ?_, ?_, ?_⟩
  · rw [hcount]
    exact concatDigests_perm d N dig entries hentries
  · exact blocks_length d (fun i => slotBytes d (dig i)) (fun j => slotBytes_length d _) N
  · intro i hi
    apply flatten_block d _ i (dig i)
    · intro y hy
      obtain ⟨j, _, rfl⟩ := List.mem_map.1 hy
      exact slotBytes_length d _
    · rw [List.getElem?_map, List.getElem?_range hi]
      simp [slotBytes_of_length d _ (hlen i hi)]
  · rw [hslots]

/-- Witness of C7: three digests of two bytes, arriving in the order 2, 0, 1 and walked in
the order 1, 2, 0, land in index order. -/
theorem concat_order_independent_witness :
    ∃ b, concatDigests 2 [(1, [3, 4]), (2, [5, 6]), (0, [1, 2])]
        (collectDigests [⟨[5, 6], 2⟩, ⟨[1, 2], 0⟩, ⟨[3, 4], 1⟩]).length = some b ∧
      b.length = 3 * 2 ∧
      (∀ i, i < 3 → (b.drop (i * 2)).take 2 = sampleDigest i) ∧
      b = ((List.range 3).map sampleDigest).flatten :=
  concat_order_independent 3 2 sampleDigest (fun _ _ => rfl) [⟨[5, 6], 2⟩, ⟨[1, 2], 0⟩, ⟨[3, 4], 1⟩] (by decide)
    [(1, [3, 4]), (2, [5, 6]), (0, [1, 2])] (by decide)

theorem hashChunk_leafDigest {σ : Type} (algo : hashDesc σ) (hm : Hash σ) (g : Flags)
    (c : chunkInput)
    (hmk : ∃ s, algo.maker (uint8 g.sizeFlag) (uint64 c.part) c.lastChunk 0
      (uint32 c.leafSize) = .ok s) :
    hashChunk algo hm g c = some ⟨leafDigest algo hm g c, c.part⟩ := by
  obtain ⟨s, hs⟩ := hmk
  by_cases hcp : (hm.Copy (hm.Reset s) c.partBuffer).2 = none
  · have h := hashChunk_ok algo hm g c s hs hcp
    unfold leafDigest
    rw [h]
  · have h := hashChunk_fault algo hm g c s hs hcp
    unfold leafDigest
    rw [h]

/-- C8, the claim as stated is false: the worker of leaf 1 fails to absorb its chunk, and
`calcStream` still returns a digest with a nil error, computed over the digest of leaf 0
followed by two zero bytes in the place of leaf 1. -/
theorem calcStream_masks_write_fault :
    (faultyHash.Copy (faultyHash.Reset ⟨2, 1, true, 0, 4, []⟩) [5, 6]).2 ≠ none ∧
    calcStream recordingAlgo faultyHash ⟨2, 4, 4⟩ bufferRead ([1, 2, 3, 4, 5, 6] : List Byte)
        (-1) Schedule.inOrder 3 =
      some (Outcome.digest (recordedHash 2 0 true 1 4
        (recordedHash 2 0 false 0 4 [1, 2, 3, 4] ++ [0, 0]))) := by
  decide

/-- C8 as amended: on an input whose chunks are all produced (a filling reader, `L > 0`, a
leaf size that `make` can allocate, the length unknown and not a multiple of the leaf size,
or known) and whose leaf hashes are
all constructed, `calcStream` returns a non-nil error and no digest when the construction
of the root hash fails; when the root hash is constructed (and absorbs the buffer) it
returns the root digest of the concatenation buffer, in which a chunk whose bytes could not
be absorbed holds an all-zero slot (the worker submits an empty digest for it). -/
theorem calcStream_error_policy {σ ρ : Type} (algo : hashDesc σ) (hm : Hash σ) (g : Flags)
    (d : Nat) (hd : g.sizeFlag = (d : Int)) (hS : 0 < g.leafSize)
    (hmax : g.leafSize ≤ maxAlloc) (hcpu : 0 < g.cpu)
    (read : ρ → Nat → ReadResult ρ) (rest : ρ → List Byte) (hfill : FillsRequests read rest)
    (r : ρ) (fileSize : Int) (hL : 0 < (rest r).length) (hL63 : (rest r).length < 2 ^ 63)
    (hmode : (fileSize = -1 ∧ ¬ g.leafSize ∣ (rest r).length) ∨
      fileSize = ((rest r).length : Int))
    (hmk : ∀ i, i < leafCount (rest r).length g.leafSize →
      ∃ s, algo.maker (uint8 g.sizeFlag) (uint64 i)
        (decide (i + 1 = leafCount (rest r).length g.leafSize)) 0 (uint32 g.leafSize) = .ok s)
    (sched : Schedule) (hsched : sched.Valid)
    (fuel : Nat) (hfuel : leafCount (rest r).length g.leafSize < fuel) :
    (∀ e, algo.maker (uint8 g.sizeFlag) 0 true 1 (uint32 g.leafSize) = .error e →
      calcStream algo hm g read r fileSize sched fuel = some (Outcome.error e)) ∧
    (∀ s, algo.maker (uint8 g.sizeFlag) 0 true 1 (uint32 g.leafSize) = .ok s →
      (hm.Copy (hm.Reset s) ((List.range (leafCount (rest r).length g.leafSize)).map
        (fun i => slotBytes d (leafDigest algo hm g (leafChunk (rest r) g.leafSize i)))).flatten).2
        = none →
      calcStream algo hm g read r fileSize sched fuel =
        some (Outcome.digest (hm.Sum (hm.Copy (hm.Reset s)
          ((List.range (leafCount (rest r).length g.leafSize)).map
            (fun i => slotBytes d
              (leafDigest algo hm g (leafChunk (rest r) g.leafSize i)))).flatten).1))) ∧
    (∀ i s, i < leafCount (rest r).length g.leafSize →
      algo.maker (uint8 g.sizeFlag) (uint64 i)
        (decide (i + 1 = leafCount (rest r).length g.leafSize)) 0 (uint32 g.leafSize) = .ok s →
      (hm.Copy (hm.Reset s) (leafBytes (rest r) g.leafSize i)).2 ≠ none →
      slotBytes d (leafDigest algo hm g (leafChunk (rest r) g.leafSize i)) =
        List.replicate d 0) := by
  rw [two_pow_63] at hL63
  obtain ⟨hsize, hmark⟩ := mode_split g.leafSize _ fileSize hmode
  have hleaf : ∀ i, i < leafCount (rest r).length g.leafSize →
      hashChunk algo hm g ⟨i, leafBytes (rest r) g.leafSize i,
        decide (i + 1 = leafCount (rest r).length g.leafSize), g.leafSize, 0⟩ =
        some ⟨leafDigest algo hm g (leafChunk (rest r) g.leafSize i), i⟩ := fun i hi =>
    hashChunk_leafDigest algo hm g (leafChunk (rest r) g.leafSize i) (hmk i hi)
  have hmain := calcStream_fill algo hm g read rest hfill r fileSize sched hsched d hd hS
    hmax hcpu hL hL63 (fileSize_not_inner g.leafSize _ fileSize hsize) hmark _ hleaf fuel hfuel
  refine ⟨?_, ?_, ?_⟩
  · intro e he
    rw [hmain, he]
  · intro s hs _
    rw [hmain, hs]
  · intro i s _ hs hcp
    have h := hashChunk_fault algo hm g (leafChunk (rest r) g.leafSize i) s hs hcp
    unfold leafDigest
    rw [h]
    simp [slotBytes]

/-- Witness of the amended C8: an algorithm that rejects the parameters of the root node
makes `calcStream` return that error. -/
theorem calcStream_error_policy_witness :
    calcStream rootlessAlgo recordingHash ⟨2, 4, 4⟩ bufferRead
        ([1, 2, 3, 4, 5, 6] : List Byte) (-1) Schedule.inOrder 3 =
      some (Outcome.error "node depth not supported") :=
  (calcStream_error_policy rootlessAlgo recordingHash ⟨2, 4, 4⟩ 2 rfl (by decide) (by decide)
    (by decide) bufferRead id bufferRead_fills ([1, 2, 3, 4, 5, 6] : List Byte) (-1) (by decide)
    (by decide) (Or.inl ⟨rfl, by decide⟩) (fun _ _ => ⟨_, rfl⟩)
    Schedule.inOrder inOrder_valid 3 (by decide)).1 "node depth not supported" rfl

theorem workers_none_left {σ : Type} (algo : hashDesc σ) (hm : Hash σ) (g : Flags)
    (live : Nat) : calcChunkWorkers algo hm g live [] = ([], live) := by
  cases live <;> rfl

/-- C4 on the code: on a stream without bytes the first read returns end-of-file, the
producer returns without closing the chunk queue, and with at least one worker `calcStream`
never returns: the workers wait on `chunks`, so `results` is never closed. -/
theorem calcStream_empty_input_blocks {σ ρ : Type} (algo : hashDesc σ) (hm : Hash σ)
    (g : Flags) (hS : 0 < g.leafSize) (hmax : g.leafSize ≤ maxAlloc) (hcpu : 0 < g.cpu)
    (read : ρ → Nat → ReadResult ρ) (rest : ρ → List Byte) (hfill : FillsRequests read rest)
    (r : ρ) (hempty : rest r = []) (fileSize : Int) (sched : Schedule)
    (fuel : Nat) (hfuel : 0 < fuel) :
    chunkProducer read g.leafSize fileSize fuel r 0 0 = some ([], ProducerEnd.returned) ∧
    calcStream algo hm g read r fileSize sched fuel = some Outcome.blocked := by
  obtain ⟨f, rfl⟩ : ∃ f, fuel = f + 1 := ⟨fuel - 1, by omega⟩
  have herr := ((hfill r g.leafSize hS).1 hempty).2
  have hprod := chunkProducer_eof read g.leafSize fileSize f r 0 0 hmax herr
  refine ⟨hprod, ?_⟩
  have hlive : g.cpu.toNat ≠ 0 := by omega
  have hnp : ¬ (ProducerEnd.returned = ProducerEnd.panicked) := by decide
  unfold calcStream
  rw [hprod]
  simp only [hnp, if_false, workers_none_left]
  rw [if_pos ⟨hlive, trivial⟩]

/-- Failing input of C4: the empty `bytes.Buffer`. -/
theorem calcStream_empty_input_blocks_witness :
    chunkProducer bufferRead 4096 (-1) 1 ([] : List Byte) 0 0 =
      some ([], ProducerEnd.returned) ∧
    calcStream recordingAlgo recordingHash ⟨64, 8, 4096⟩ bufferRead ([] : List Byte) (-1)
      Schedule.inOrder 1 = some Outcome.blocked :=
  calcStream_empty_input_blocks recordingAlgo recordingHash ⟨64, 8, 4096⟩ (by decide)
    (by decide) (by decide) bufferRead id bufferRead_fills [] rfl (-1) Schedule.inOrder 1 (by decide)

/-- C3 on the code: when the length is a positive multiple of the leaf size and unknown in
advance (`fileSize = -1`), the producer sends every leaf with `lastChunk = false`, then
reads end-of-file and returns without closing the chunk queue; with at least one worker and
leaf hashes that can be constructed, `calcStream` never returns. -/
theorem calcStream_exact_multiple_blocks {σ ρ : Type} (algo : hashDesc σ) (hm : Hash σ)
    (g : Flags) (hS : 0 < g.leafSize) (hmax : g.leafSize ≤ maxAlloc) (hcpu : 0 < g.cpu)
    (read : ρ → Nat → ReadResult ρ) (rest : ρ → List Byte) (hfill : FillsRequests read rest)
    (r : ρ) (hL : 0 < (rest r).length) (hL63 : (rest r).length < 2 ^ 63)
    (hdvd : g.leafSize ∣ (rest r).length)
    (hmk : ∀ i, i < leafCount (rest r).length g.leafSize →
      ∃ s, algo.maker (uint8 g.sizeFlag) (uint64 i) false 0 (uint32 g.leafSize) = .ok s)
    (sched : Schedule) (fuel : Nat) (hfuel : leafCount (rest r).length g.leafSize < fuel) :
    chunkProducer read g.leafSize (-1) fuel r 0 0 =
      some ((List.range (leafCount (rest r).length g.leafSize)).map (fun i =>
        (⟨i, (List.drop (i * g.leafSize) (rest r)).take g.leafSize, false, g.leafSize, 0⟩ :
          chunkInput)), ProducerEnd.returned) ∧
    calcStream algo hm g read r (-1) sched fuel = some Outcome.blocked := by
  rw [two_pow_63] at hL63
  have hm0 : false = decide (¬ g.leafSize ∣ (rest r).length ∨
      (-1 : Int) = ((rest r).length : Int)) := by
    symm
    apply decide_eq_false
    rintro (h | h)
    · exact h hdvd
    · omega
  have h := chunkProducer_fill read rest hfill g.leafSize hS hmax (-1) (rest r) hL63
    (fileSize_not_inner g.leafSize _ (-1) (Or.inl rfl)) false hm0
    (leafCount (rest r).length g.leafSize) 0 r fuel (by simp) (by simp)
    (leafCount_pos _ _ hS hL) hfuel
  have e : ((0 * g.leafSize : Nat) : Int) = 0 := by simp
  rw [e, ← List.range_eq_range'] at h
  simp only [Bool.and_false, Bool.false_eq_true, if_false] at h
  have hprod : chunkProducer read g.leafSize (-1) fuel r 0 0 =
      some ((List.range (leafCount (rest r).length g.leafSize)).map (fun i =>
        (⟨i, (List.drop (i * g.leafSize) (rest r)).take g.leafSize, false, g.leafSize, 0⟩ :
          chunkInput)), ProducerEnd.returned) := h
  refine ⟨hprod, ?_⟩
  have hlive : 0 < g.cpu.toNat := by omega
  have hlive' : g.cpu.toNat ≠ 0 := by omega
  have hwork := workers_all algo hm g
    (fun i => (⟨i, (List.drop (i * g.leafSize) (rest r)).take g.leafSize, false,
      g.leafSize, 0⟩ : chunkInput))
    (fun i => (⟨leafDigest algo hm g ⟨i, (List.drop (i * g.leafSize) (rest r)).take
      g.leafSize, false, g.leafSize, 0⟩, i⟩ : chunkOutput))
    (List.range (leafCount (rest r).length g.leafSize))
    (fun i hi => hashChunk_leafDigest algo hm g _ (hmk i (List.mem_range.1 hi)))
    g.cpu.toNat hlive
  have hnp : ¬ (ProducerEnd.returned = ProducerEnd.panicked) := by decide
  unfold calcStream
  rw [hprod]
  simp only [hnp, if_false, hwork]
  rw [if_pos ⟨hlive', trivial⟩]

/-- Failing input of C3: four bytes with leaf size 2 on a stream of unknown length. -/
theorem calcStream_exact_multiple_blocks_witness :
    chunkProducer bufferRead 2 (-1) 3 ([1, 2, 3, 4] : List Byte) 0 0 =
      some ([⟨0, [1, 2], false, 2, 0⟩, ⟨1, [3, 4], false, 2, 0⟩], ProducerEnd.returned) ∧
    calcStream recordingAlgo recordingHash ⟨64, 8, 2⟩ bufferRead ([1, 2, 3, 4] : List Byte)
      (-1) Schedule.inOrder 3 = some Outcome.blocked :=
  calcStream_exact_multiple_blocks recordingAlgo recordingHash ⟨64, 8, 2⟩ (by decide)
    (by decide) (by decide) bufferRead id bufferRead_fills ([1, 2, 3, 4] : List Byte) (by decide)
    (by decide) (by decide) (fun _ _ => ⟨_, rfl⟩) Schedule.inOrder 3 (by decide)

/-- C9 on the code: a stream of six bytes that arrive in two bursts of three, read with
leaf size 4.  The first read returns three bytes; the producer takes the short read for the
end of the input, marks the chunk last and closes the queue: the chunks cover three of the
six bytes, and `calcStream` returns the digest of that one leaf. -/
theorem chunkProducer_short_read_truncates :
    chunkProducer pipeRead 4 (-1) 3 ([[1, 2, 3], [4, 5, 6]] : List (List Byte)) 0 0 =
      some ([⟨0, [1, 2, 3], true, 4, 0⟩], ProducerEnd.closed) ∧
    (([⟨0, [1, 2, 3], true, 4, 0⟩] : List chunkInput).map
      (fun c => c.partBuffer.length)).sum = 3 ∧
    ([[1, 2, 3], [4, 5, 6]] : List (List Byte)).flatten.length = 6 ∧
    calcStream recordingAlgo recordingHash ⟨2, 4, 4⟩ pipeRead
        ([[1, 2, 3], [4, 5, 6]] : List (List Byte)) (-1) Schedule.inOrder 3 =
      some (Outcome.digest (recordedHash 2 0 true 1 4 (recordedHash 2 0 true 0 4 [1, 2, 3]))) := by
  decide

end Bt2sum
